import Mathlib

/-!
Verification of the AIToolStack annotation-editing engine specification.

The repository's front end exposes an annotation workbench (select / bbox /
polygon / keypoint tools over a raster image) with pan/zoom, hit-testing and
a linear undo/redo history.  This file embeds the data model and operations
shallowly: coordinates are rationals (modelling the JavaScript floats), the
annotation store is an explicit record, and the history manager is a list of
self-contained entries with a cursor.  Definitions for the front-end files
present in the repository (ControlPanel, ToolsBar, ShortcutHelper, App) are
translated directly from that source; the engine components whose source
module (AnnotationWorkbench / AnnotationCanvas) is not part of the packaged
sources are modelled from the specification, as marked in their doc comments.
-/

namespace NeoEyes

/-- A 2-D point; rationals model the JavaScript float coordinates. -/
structure Point where
  x : ℚ
  y : ℚ
deriving DecidableEq, Repr

/-- Modelled from the spec: the per-document viewport state of the missing
AnnotationCanvas module — positive zoom factor and a pan offset in viewport
pixels. -/
structure ViewportState where
  zoom : ℚ
  pan : Point
deriving DecidableEq, Repr

/-- Modelled from the spec: CoordinateMapper, viewport to image space,
computing imagePoint = (viewportPoint - pan) / zoom componentwise. -/
def toImageSpace (p : Point) (v : ViewportState) : Point :=
  ⟨(p.x - v.pan.x) / v.zoom, (p.y - v.pan.y) / v.zoom⟩

/-- Modelled from the spec: CoordinateMapper, image to viewport space, the
inverse map viewportPoint = imagePoint * zoom + pan. -/
def toViewportSpace (q : Point) (v : ViewportState) : Point :=
  ⟨q.x * v.zoom + v.pan.x, q.y * v.zoom + v.pan.y⟩

/-- Claim C3: for every viewport point p and every viewport state v with a
positive zoom, mapping to image space and back to viewport space returns p.
Over the rationals (the model of float arithmetic) the inverse is exact, so
the floating-point tolerance of the claim becomes equality. -/
theorem toViewportSpace_toImageSpace (p : Point) (v : ViewportState)
    (hz : 0 < v.zoom) : toViewportSpace (toImageSpace p v) v = p := by
  obtain ⟨px, py⟩ := p
  have hz' : v.zoom ≠ 0 := ne_of_gt hz
  simp only [toImageSpace, toViewportSpace, Point.mk.injEq]
  constructor <;> field_simp

/-- Claim C3 witness: the round trip at the concrete viewport point (3, 4)
with zoom 2 and pan (5, 6). -/
theorem toViewportSpace_toImageSpace_witness :
    0 < (ViewportState.mk 2 ⟨5, 6⟩).zoom ∧
      toViewportSpace (toImageSpace ⟨3, 4⟩ ⟨2, ⟨5, 6⟩⟩) ⟨2, ⟨5, 6⟩⟩ = ⟨3, 4⟩ :=
  ⟨by norm_num, toViewportSpace_toImageSpace ⟨3, 4⟩ ⟨2, ⟨5, 6⟩⟩ (by norm_num)⟩

/-- The engine error taxonomy of the spec (the history reports are separate,
see HistoryReport). -/
inductive GeomError
  | degenerateGeometry
  | invalidGeometry
deriving DecidableEq, Repr

/-- A canonical top-left-origin rectangle in image-pixel space. -/
structure BBoxRect where
  x : ℚ
  y : ℚ
  width : ℚ
  height : ℚ
deriving DecidableEq, Repr

/-- Modelled from the spec: GeometryKernel.normalizeBBox of the missing
engine module — orders two drag corners into a canonical top-left-origin
rectangle and signals DegenerateGeometry when the resulting width or height
is below the minimum pixel threshold minSize. -/
def normalizeBBox (minSize : ℚ) (p0 p1 : Point) : Except GeomError BBoxRect :=
  let w := |p0.x - p1.x|
  let h := |p0.y - p1.y|
  if w < minSize ∨ h < minSize then .error .degenerateGeometry
  else .ok ⟨min p0.x p1.x, min p0.y p1.y, w, h⟩

/-- Kind-specific geometry payload of one shape. -/
inductive Geometry
  | bbox (x y width height : ℚ)
  | polygon (vertices : List Point)
  | keypoint (p : Point)
deriving DecidableEq, Repr

/-- One committed shape on one image. -/
structure Annotation where
  id : Nat
  classId : Nat
  geometry : Geometry
  visible : Bool
deriving DecidableEq, Repr

/-- The edges of a polygon given by its open vertex list, including the
closing edge from the last vertex back to the first. -/
def polygonEdges (vs : List Point) : List (Point × Point) :=
  match vs with
  | [] => []
  | v :: _ => vs.zip (vs.drop 1 ++ [v])

/-- Whether a horizontal ray from p to the right crosses the edge (a, b);
the standard ray-casting crossing test. -/
def crossesRay (p : Point) (e : Point × Point) : Bool :=
  let a := e.1
  let b := e.2
  (decide (p.y < a.y) != decide (p.y < b.y)) &&
    decide (p.x < (b.x - a.x) * (p.y - a.y) / (b.y - a.y) + a.x)

/-- Modelled from the spec: point-in-polygon by ray casting with the
even-odd rule — the point is inside when the ray crosses an odd number of
edges. -/
def pointInPolygon (p : Point) (vs : List Point) : Bool :=
  ((polygonEdges vs).countP (crossesRay p)) % 2 = 1

/-- Squared distance from p to the closed segment from a to b, clamping the
projection parameter to [0, 1]. -/
def distSqPointSeg (p a b : Point) : ℚ :=
  let dx := b.x - a.x
  let dy := b.y - a.y
  let len2 := dx * dx + dy * dy
  if len2 = 0 then (p.x - a.x) ^ 2 + (p.y - a.y) ^ 2
  else
    let t := max 0 (min 1 (((p.x - a.x) * dx + (p.y - a.y) * dy) / len2))
    (p.x - (a.x + t * dx)) ^ 2 + (p.y - (a.y + t * dy)) ^ 2

/-- Whether p lies within tolerance tol of some edge of the polygon. -/
def nearPolygonEdge (p : Point) (vs : List Point) (tol : ℚ) : Bool :=
  (polygonEdges vs).any fun e => decide (distSqPointSeg p e.1 e.2 ≤ tol * tol)

/-- Modelled from the spec: the GeometryKernel hit test — bbox uses
point-in-rectangle, polygon uses ray-casting interior hit or else
edge-proximity within tolerance, keypoint uses distance-within-tolerance
(squared distances avoid square roots). -/
def hitTestAnnotation (p : Point) (ann : Annotation) (tol : ℚ) : Bool :=
  match ann.geometry with
  | .bbox x y w h =>
      decide (x ≤ p.x) && decide (p.x ≤ x + w) &&
        decide (y ≤ p.y) && decide (p.y ≤ y + h)
  | .polygon vs => pointInPolygon p vs || nearPolygonEdge p vs tol
  | .keypoint q =>
      decide ((p.x - q.x) ^ 2 + (p.y - q.y) ^ 2 ≤ tol * tol)

/-- Modelled from the spec: AnnotationStore — the ordered in-memory
collection of committed annotations for the current image, the next id to
assign (monotonic per image) and the at-most-one selected id. -/
structure AnnotationStore where
  annotations : List Annotation
  nextId : Nat
  selected : Option Nat
deriving DecidableEq, Repr

/-- Remove the annotation carrying the given id (ids are unique in a
well-formed store, so the first match is the only one). -/
def removeById (l : List Annotation) (i : Nat) : List Annotation :=
  match l with
  | [] => []
  | a :: rest => if a.id = i then rest else a :: removeById rest i

/-- Insert an annotation back at a given list position (inverse of a
removal). -/
def insertAt (n : Nat) (a : Annotation) (l : List Annotation) :
    List Annotation :=
  match n, l with
  | 0, l => a :: l
  | _ + 1, [] => [a]
  | n + 1, x :: rest => x :: insertAt n a rest

/-- Index of the first annotation carrying the given id. -/
def findIdxById (l : List Annotation) (i : Nat) : Nat :=
  match l with
  | [] => 0
  | a :: rest => if a.id = i then 0 else findIdxById rest i + 1

/-- The first annotation carrying the given id, if any. -/
def findById (l : List Annotation) (i : Nat) : Option Annotation :=
  match l with
  | [] => none
  | a :: rest => if a.id = i then some a else findById rest i

/-- Replace the geometry of the annotation carrying the given id. -/
def setGeometry (l : List Annotation) (i : Nat) (g : Geometry) :
    List Annotation :=
  l.map fun a => if a.id = i then { a with geometry := g } else a

/-- Modelled from the spec: a HistoryEntry is one reversible command,
self-contained — it captures the full created/deleted annotation value (and
the deleted annotation's list position, so undo restores insertion order)
or the full before/after geometry of an edit, never a delta depending on
external mutable state. -/
inductive HistoryEntry
  | create (ann : Annotation)
  | delete (ann : Annotation) (pos : Nat)
  | modify (i : Nat) (before after : Geometry)
deriving DecidableEq, Repr

/-- Modelled from the spec: replaying one entry forward (redo direction)
over the ordered annotation list. -/
def applyEntry (e : HistoryEntry) (l : List Annotation) : List Annotation :=
  match e with
  | .create ann => l ++ [ann]
  | .delete ann _ => removeById l ann.id
  | .modify i _ after => setGeometry l i after

/-- Modelled from the spec: replaying one entry backward (undo direction). -/
def invertEntry (e : HistoryEntry) (l : List Annotation) : List Annotation :=
  match e with
  | .create ann => removeById l ann.id
  | .delete ann pos => insertAt pos ann l
  | .modify i before _ => setGeometry l i before

/-- The whole engine state for one open image: the store plus the history
stack with its cursor. -/
structure EngineState where
  store : AnnotationStore
  history : List HistoryEntry
  cursor : Nat
deriving DecidableEq, Repr

/-- The state for a freshly opened image: empty store, empty history. -/
def initialEngineState : EngineState :=
  ⟨⟨[], 1, none⟩, [], 0⟩

/-- Modelled from the spec: HistoryManager.record — truncate any entries
past the cursor, append the new entry, advance the cursor; the store is
simultaneously replaced by the already-mutated one. -/
def recordEntry (s : EngineState) (e : HistoryEntry)
    (newStore : AnnotationStore) : EngineState :=
  ⟨newStore, s.history.take s.cursor ++ [e], s.cursor + 1⟩

/-- One logical user action to commit: create a shape, delete a shape, or
edit a shape's geometry (move / resize / vertex edit, captured as the full
after-geometry). -/
inductive UserAction
  | createAnn (classId : Nat) (g : Geometry)
  | deleteAnn (i : Nat)
  | editAnn (i : Nat) (g : Geometry)
deriving DecidableEq, Repr

/-- Modelled from the spec: committing one user action — mutate the store
and record a self-contained history entry.  A delete or edit of an unknown
id is ignored, and an edit that does not change the geometry is not
recorded (no-op commits are not recorded). -/
def commit (a : UserAction) (s : EngineState) : EngineState :=
  match a with
  | .createAnn c g =>
      let ann : Annotation := ⟨s.store.nextId, c, g, true⟩
      recordEntry s (.create ann)
        ⟨s.store.annotations ++ [ann], s.store.nextId + 1, s.store.selected⟩
  | .deleteAnn i =>
      match findById s.store.annotations i with
      | none => s
      | some ann =>
          recordEntry s (.delete ann (findIdxById s.store.annotations i))
            ⟨removeById s.store.annotations i, s.store.nextId,
              s.store.selected⟩
  | .editAnn i g =>
      match findById s.store.annotations i with
      | none => s
      | some ann =>
          if ann.geometry = g then s
          else
            recordEntry s (.modify i ann.geometry g)
              ⟨setGeometry s.store.annotations i g, s.store.nextId,
                s.store.selected⟩

/-- Outcome reported by one undo / redo call. -/
inductive HistoryReport
  | ok
  | nothingToUndo
  | nothingToRedo
deriving DecidableEq, Repr

/-- Modelled from the spec: HistoryManager.undo — if the cursor is positive,
apply the inverse of the entry at cursor - 1 and decrement the cursor,
otherwise report NothingToUndo and leave the state unchanged. -/
def undo (s : EngineState) : EngineState × HistoryReport :=
  match s.history[s.cursor - 1]? with
  | some e =>
      if s.cursor = 0 then (s, .nothingToUndo)
      else
        (⟨⟨invertEntry e s.store.annotations, s.store.nextId,
            s.store.selected⟩, s.history, s.cursor - 1⟩, .ok)
  | none => (s, .nothingToUndo)

/-- Modelled from the spec: HistoryManager.redo — if the cursor is below the
history length, apply the entry at the cursor and increment it, otherwise
report NothingToRedo and leave the state unchanged. -/
def redo (s : EngineState) : EngineState × HistoryReport :=
  match s.history[s.cursor]? with
  | some e =>
      (⟨⟨applyEntry e s.store.annotations, s.store.nextId,
          s.store.selected⟩, s.history, s.cursor + 1⟩, .ok)
  | none => (s, .nothingToRedo)

/-- undo called n times in a row (discarding the reports). -/
def undoN : Nat → EngineState → EngineState
  | 0, s => s
  | n + 1, s => undoN n (undo s).1

/-- redo called n times in a row (discarding the reports). -/
def redoN : Nat → EngineState → EngineState
  | 0, s => s
  | n + 1, s => redoN n (redo s).1

/-- Running a whole sequence of user actions from a starting state. -/
def runActions (actions : List UserAction) (s : EngineState) : EngineState :=
  actions.foldl (fun s a => commit a s) s

/-- Replaying a list of history entries forward from a base annotation
list. -/
def replay (l0 : List Annotation) (es : List HistoryEntry) :
    List Annotation :=
  es.foldl (fun l e => applyEntry e l) l0

/-- A history is valid for a base list and a final list when replaying it
forward from the base reaches the final list and every entry, at the state
where it was recorded, is exactly inverted by its undo replay. -/
inductive ValidHistory :
    List Annotation → List HistoryEntry → List Annotation → Prop
  | nil (l : List Annotation) : ValidHistory l [] l
  | cons (l : List Annotation) (e : HistoryEntry) (es : List HistoryEntry)
      (l' : List Annotation)
      (hinv : invertEntry e (applyEntry e l) = l)
      (htail : ValidHistory (applyEntry e l) es l') :
      ValidHistory l (e :: es) l'

theorem valid_replay {l es l'} (hv : ValidHistory l es l') :
    replay l es = l' := by
  induction hv with
  | nil l => rfl
  | cons l e es l' hinv htail ih => simpa [replay] using ih

theorem ValidHistory.append {l es l'} (e : HistoryEntry)
    (hinv : invertEntry e (applyEntry e l') = l')
    (hv : ValidHistory l es l') :
    ValidHistory l (es ++ [e]) (applyEntry e l') := by
  induction hv with
  | nil l => exact .cons _ _ _ _ hinv (.nil _)
  | cons l e0 es l' hinv0 htail ih => exact .cons _ _ _ _ hinv0 (ih hinv)

theorem replay_take_succ (l : List Annotation) (es : List HistoryEntry)
    (i : Nat) (h : i < es.length) :
    replay l (es.take (i + 1)) = applyEntry es[i] (replay l (es.take i)) := by
  have htake : es.take (i + 1) = es.take i ++ [es[i]] := by
    rw [List.take_succ, List.getElem?_eq_getElem h]
    rfl
  simp only [replay]
  rw [htake, List.foldl_append]
  rfl

theorem valid_invert_at {l es l'} (hv : ValidHistory l es l') :
    ∀ i (hi : i < es.length),
      invertEntry es[i] (applyEntry es[i] (replay l (es.take i))) =
        replay l (es.take i) := by
  induction hv with
  | nil l => intro i hi; simp at hi
  | cons l e es l' hinv htail ih =>
    intro i hi
    cases i with
    | zero => simpa [replay] using hinv
    | succ j =>
      have hj : j < es.length := by simpa using hi
      have hrec := ih j hj
      simpa [replay, List.take_succ_cons] using hrec

theorem removeById_append_of_fresh (l : List Annotation) (ann : Annotation)
    (hfresh : ∀ a ∈ l, a.id ≠ ann.id) :
    removeById (l ++ [ann]) ann.id = l := by
  induction l with
  | nil => simp [removeById]
  | cons x rest ih =>
    have hx : x.id ≠ ann.id := hfresh x (by simp)
    simp only [List.cons_append, removeById, hx, if_false]
    exact congrArg (List.cons x) (ih fun a ha => hfresh a (by simp [ha]))

theorem findById_id {l : List Annotation} {i : Nat} {ann : Annotation}
    (hfind : findById l i = some ann) : ann.id = i := by
  induction l with
  | nil => simp [findById] at hfind
  | cons x rest ih =>
    by_cases hx : x.id = i
    · simp only [findById, hx, if_true, Option.some.injEq] at hfind
      rw [← hfind]; exact hx
    · simp only [findById, hx, if_false] at hfind
      exact ih hfind

theorem insertAt_removeById (l : List Annotation) (i : Nat)
    (ann : Annotation) (hfind : findById l i = some ann) :
    insertAt (findIdxById l i) ann (removeById l i) = l := by
  induction l with
  | nil => simp [findById] at hfind
  | cons x rest ih =>
    by_cases hx : x.id = i
    · simp only [findById, hx, if_true, Option.some.injEq] at hfind
      subst hfind
      simp [findIdxById, removeById, insertAt, hx]
    · simp only [findById, hx, if_false] at hfind
      simp only [findIdxById, removeById, hx, if_false, insertAt]
      rw [ih hfind]

theorem findById_unique {l : List Annotation} {i : Nat} {ann : Annotation}
    (hnd : (l.map (fun a => a.id)).Nodup) (hfind : findById l i = some ann) :
    ∀ a ∈ l, a.id = i → a = ann := by
  induction l with
  | nil => intro a ha; simp at ha
  | cons x rest ih =>
    intro a ha hai
    have hnd' : (rest.map (fun a => a.id)).Nodup := (List.nodup_cons.mp hnd).2
    have hxid : x.id ∉ rest.map (fun a => a.id) := (List.nodup_cons.mp hnd).1
    by_cases hx : x.id = i
    · simp only [findById, hx, if_true, Option.some.injEq] at hfind
      rcases List.mem_cons.mp ha with rfl | hmem
      · exact hfind.symm ▸ rfl
      · exfalso
        exact hxid (by
          rw [hx, ← hai]
          exact List.mem_map.mpr ⟨a, hmem, rfl⟩)
    · simp only [findById, hx, if_false] at hfind
      rcases List.mem_cons.mp ha with rfl | hmem
      · exact absurd hai hx
      · exact ih hnd' hfind a hmem hai

theorem setGeometry_cons (x : Annotation) (rest : List Annotation)
    (i : Nat) (g : Geometry) :
    setGeometry (x :: rest) i g =
      (if x.id = i then { x with geometry := g } else x) ::
        setGeometry rest i g := rfl

theorem setGeometry_cancel (l : List Annotation) (i : Nat)
    (g0 g1 : Geometry) (hall : ∀ a ∈ l, a.id = i → a.geometry = g0) :
    setGeometry (setGeometry l i g1) i g0 = l := by
  induction l with
  | nil => rfl
  | cons x rest ih =>
    have hrest : setGeometry (setGeometry rest i g1) i g0 = rest :=
      ih fun a ha => hall a (by simp [ha])
    rw [setGeometry_cons]
    by_cases hx : x.id = i
    · rw [if_pos hx, setGeometry_cons,
        if_pos (show ({ x with geometry := g1 } : Annotation).id = i from hx),
        hrest]
      have hxg : x.geometry = g0 := hall x (by simp) hx
      obtain ⟨xid, xc, xg, xv⟩ := x
      have hxg' : xg = g0 := hxg
      subst hxg'
      rfl
    · rw [if_neg hx, setGeometry_cons, if_neg hx, hrest]

theorem removeById_sublist (l : List Annotation) (i : Nat) :
    (removeById l i).Sublist l := by
  induction l with
  | nil => simp [removeById]
  | cons x rest ih =>
    by_cases hx : x.id = i
    · simp only [removeById, hx, if_true]
      exact (List.Sublist.refl rest).cons x
    · simp only [removeById, hx, if_false]
      exact ih.cons₂ x

theorem setGeometry_map_id (l : List Annotation) (i : Nat) (g : Geometry) :
    (setGeometry l i g).map (fun a => a.id) = l.map (fun a => a.id) := by
  induction l with
  | nil => rfl
  | cons x rest ih =>
    simp only [setGeometry, List.map_cons] at ih ⊢
    rw [ih]
    by_cases hx : x.id = i <;> simp [hx]

/-- Store well-formedness: every stored id is below the next id to assign
(ids are monotonic per image) and the stored ids are pairwise distinct. -/
def StoreWF (st : AnnotationStore) : Prop :=
  (∀ a ∈ st.annotations, a.id < st.nextId) ∧
    (st.annotations.map (fun a => a.id)).Nodup

/-- Engine well-formedness after a run of committed actions: the store is
well formed, the cursor sits at the top of the history, and the history
validly replays from the empty store to the current annotations. -/
def EngineWF (s : EngineState) : Prop :=
  StoreWF s.store ∧ s.cursor = s.history.length ∧
    ValidHistory [] s.history s.store.annotations

theorem initial_wf : EngineWF initialEngineState :=
  ⟨⟨fun a ha => absurd ha (List.not_mem_nil a), List.nodup_nil⟩, rfl, .nil []⟩

theorem commit_wf {s : EngineState} (a : UserAction) (hwf : EngineWF s) :
    EngineWF (commit a s) := by
  obtain ⟨⟨hbound, hnd⟩, hc, hv⟩ := hwf
  cases a with
  | createAnn c g =>
    have hfresh : ∀ b ∈ s.store.annotations, b.id ≠ s.store.nextId :=
      fun b hb => Nat.ne_of_lt (hbound b hb)
    have hinv :
        removeById (s.store.annotations ++ [⟨s.store.nextId, c, g, true⟩])
          s.store.nextId = s.store.annotations :=
      removeById_append_of_fresh _ ⟨s.store.nextId, c, g, true⟩ hfresh
    refine ⟨⟨?_, ?_⟩, ?_, ?_⟩
    · intro b hb
      simp only [commit, recordEntry] at hb ⊢
      rcases List.mem_append.mp hb with h1 | h1
      · exact Nat.lt_succ_of_lt (hbound b h1)
      · simp only [List.mem_singleton] at h1
        subst h1
        exact Nat.lt_succ_self _
    · simp only [commit, recordEntry, List.map_append, List.map_cons,
        List.map_nil]
      refine (List.nodup_append).mpr ⟨hnd, List.nodup_singleton _, ?_⟩
      intro n hn
      simp only [List.mem_singleton]
      rcases List.mem_map.mp hn with ⟨b, hb, rfl⟩
      exact Nat.ne_of_lt (hbound b hb)
    · simp only [commit, recordEntry, List.length_append, List.length_cons]
      rw [hc, List.take_length]
      simp
    · simp only [commit, recordEntry]
      rw [hc, List.take_length]
      exact hv.append (.create ⟨s.store.nextId, c, g, true⟩) hinv
  | deleteAnn i =>
    cases hfind : findById s.store.annotations i with
    | none =>
      simp only [commit, hfind]
      exact ⟨⟨hbound, hnd⟩, hc, hv⟩
    | some ann =>
      have hid : ann.id = i := findById_id hfind
      have hinv :
          insertAt (findIdxById s.store.annotations i) ann
            (removeById s.store.annotations ann.id) = s.store.annotations := by
        rw [hid]
        exact insertAt_removeById _ _ _ hfind
      refine ⟨⟨?_, ?_⟩, ?_, ?_⟩
      · intro b hb
        simp only [commit, hfind, recordEntry] at hb ⊢
        exact hbound b ((removeById_sublist _ _).subset hb)
      · simp only [commit, hfind, recordEntry]
        exact hnd.sublist ((removeById_sublist _ _).map _)
      · simp only [commit, hfind, recordEntry, List.length_append,
          List.length_cons]
        rw [hc, List.take_length]
        simp
      · simp only [commit, hfind, recordEntry]
        rw [hc, List.take_length]
        have := hv.append
          (.delete ann (findIdxById s.store.annotations i)) hinv
        simpa [applyEntry, hid] using this
  | editAnn i g =>
    cases hfind : findById s.store.annotations i with
    | none =>
      simp only [commit, hfind]
      exact ⟨⟨hbound, hnd⟩, hc, hv⟩
    | some ann =>
      by_cases hsame : ann.geometry = g
      · simp only [commit, hfind, hsame, if_true]
        exact ⟨⟨hbound, hnd⟩, hc, hv⟩
      · have hall : ∀ b ∈ s.store.annotations, b.id = i →
            b.geometry = ann.geometry := by
          intro b hb hbi
          rw [findById_unique hnd hfind b hb hbi]
        have hinv :
            setGeometry (setGeometry s.store.annotations i g) i
              ann.geometry = s.store.annotations :=
          setGeometry_cancel _ _ _ _ hall
        refine ⟨⟨?_, ?_⟩, ?_, ?_⟩
        · intro b hb
          simp only [commit, hfind, hsame, if_false, recordEntry] at hb ⊢
          have hbid : b.id ∈ (setGeometry s.store.annotations i g).map
              (fun a => a.id) := List.mem_map.mpr ⟨b, hb, rfl⟩
          rw [setGeometry_map_id] at hbid
          rcases List.mem_map.mp hbid with ⟨b', hb', hbb'⟩
          rw [← hbb']
          exact hbound b' hb'
        · simp only [commit, hfind, hsame, if_false, recordEntry]
          rw [setGeometry_map_id]
          exact hnd
        · simp only [commit, hfind, hsame, if_false, recordEntry,
            List.length_append, List.length_cons]
          rw [hc, List.take_length]
          simp
        · simp only [commit, hfind, hsame, if_false, recordEntry]
          rw [hc, List.take_length]
          exact hv.append (.modify i ann.geometry g) hinv

theorem runActions_wf (actions : List UserAction) {s : EngineState}
    (hwf : EngineWF s) : EngineWF (runActions actions s) := by
  induction actions generalizing s with
  | nil => exact hwf
  | cons a rest ih => exact ih (commit_wf a hwf)

theorem undo_step (anns : List Annotation) (nid : Nat) (sel : Option Nat)
    (h : List HistoryEntry) (c : Nat) (hc0 : c ≠ 0) (hcl : c - 1 < h.length) :
    undo ⟨⟨anns, nid, sel⟩, h, c⟩ =
      (⟨⟨invertEntry h[c - 1] anns, nid, sel⟩, h, c - 1⟩, .ok) := by
  simp only [undo, List.getElem?_eq_getElem hcl]
  rw [if_neg hc0]

theorem redo_step (anns : List Annotation) (nid : Nat) (sel : Option Nat)
    (h : List HistoryEntry) (c : Nat) (hcl : c < h.length) :
    redo ⟨⟨anns, nid, sel⟩, h, c⟩ =
      (⟨⟨applyEntry h[c] anns, nid, sel⟩, h, c + 1⟩, .ok) := by
  simp only [redo, List.getElem?_eq_getElem hcl]

theorem redo_noop (s : EngineState) (hc : s.history.length ≤ s.cursor) :
    redo s = (s, .nothingToRedo) := by
  simp only [redo, List.getElem?_eq_none hc]

theorem undoN_to_zero (h : List HistoryEntry) (lfull : List Annotation)
    (hv : ValidHistory [] h lfull) (nid : Nat) (sel : Option Nat) :
    ∀ c, c ≤ h.length →
      undoN c ⟨⟨replay [] (h.take c), nid, sel⟩, h, c⟩ =
        ⟨⟨[], nid, sel⟩, h, 0⟩ := by
  intro c
  induction c with
  | zero => intro _; rfl
  | succ j ih =>
    intro hc
    have hj : j < h.length := hc
    have hstep : replay [] (h.take (j + 1)) =
        applyEntry h[j] (replay [] (h.take j)) := replay_take_succ [] h j hj
    have hundo := undo_step (replay [] (h.take (j + 1))) nid sel h (j + 1)
      (Nat.succ_ne_zero j) (by simpa using hj)
    simp only [undoN, hundo]
    have hinv : invertEntry h[j] (replay [] (h.take (j + 1))) =
        replay [] (h.take j) := by
      rw [hstep]
      exact valid_invert_at hv j hj
    simp only [Nat.add_sub_cancel] at hinv ⊢
    rw [hinv]
    exact ih (Nat.le_of_lt hj)

theorem redoN_from (h : List HistoryEntry) (nid : Nat) (sel : Option Nat) :
    ∀ k c, c + k ≤ h.length →
      redoN k ⟨⟨replay [] (h.take c), nid, sel⟩, h, c⟩ =
        ⟨⟨replay [] (h.take (c + k)), nid, sel⟩, h, c + k⟩ := by
  intro k
  induction k with
  | zero => intro c _; rfl
  | succ j ih =>
    intro c hc
    have hcl : c < h.length := by omega
    have hredo := redo_step (replay [] (h.take c)) nid sel h c hcl
    simp only [redoN, hredo]
    have hstep : applyEntry h[c] (replay [] (h.take c)) =
        replay [] (h.take (c + 1)) := (replay_take_succ [] h c hcl).symm
    rw [hstep]
    have := ih (c + 1) (by omega)
    rw [this]
    have harith : c + 1 + j = c + (j + 1) := by omega
    rw [harith]

/-- Claim C1: for every sequence of committed user actions, with N the
number of recorded history entries, calling undo N times and then redo N
times restores the AnnotationStore exactly — the same annotation ids,
geometries and insertion order (indeed the whole store record, selection
and next id included). -/
theorem undo_redo_roundtrip (actions : List UserAction) :
    (redoN (runActions actions initialEngineState).history.length
        (undoN (runActions actions initialEngineState).history.length
          (runActions actions initialEngineState))).store =
      (runActions actions initialEngineState).store := by
  obtain ⟨⟨hbound, hnd⟩, hc, hv⟩ := runActions_wf actions initial_wf
  set s := runActions actions initialEngineState with hs
  have hfull : replay [] (s.history.take s.history.length) =
      s.store.annotations := by
    rw [List.take_length]
    exact valid_replay hv
  have hsplit : s = ⟨⟨s.store.annotations, s.store.nextId,
      s.store.selected⟩, s.history, s.history.length⟩ := by
    rw [← hc]
  have hus : undoN s.history.length s = ⟨⟨[], s.store.nextId,
      s.store.selected⟩, s.history, 0⟩ := by
    conv_lhs => rw [hsplit, ← hfull]
    exact undoN_to_zero s.history s.store.annotations hv s.store.nextId
      s.store.selected s.history.length le_rfl
  rw [hus]
  have hrs := redoN_from s.history s.store.nextId s.store.selected
    s.history.length 0 (by omega)
  simp only [List.take_zero, Nat.zero_add] at hrs
  have hrepl : replay [] ([] : List HistoryEntry) = [] := rfl
  rw [hrepl] at hrs
  rw [hrs, hfull]

/-- Whether a user action will actually commit (record an entry): creates
always do; deletes and edits need an existing id, and edits must actually
change the geometry. -/
def actionApplicable (a : UserAction) (s : EngineState) : Bool :=
  match a with
  | .createAnn _ _ => true
  | .deleteAnn i => (findById s.store.annotations i).isSome
  | .editAnn i g =>
      match findById s.store.annotations i with
      | none => false
      | some ann => decide (ann.geometry ≠ g)

theorem redo_after_record (s : EngineState) (e : HistoryEntry)
    (st' : AnnotationStore) (hcl : s.cursor ≤ s.history.length) :
    redo (recordEntry s e st') = (recordEntry s e st', .nothingToRedo) := by
  apply redo_noop
  simp only [recordEntry, List.length_append, List.length_take,
    List.length_cons, List.length_nil]
  omega

/-- Claim C2: in every history state in which at least one undo has been
performed (cursor strictly below the history length), committing an
applicable user action truncates the entries past the cursor — the new
history is the cursor-prefix plus the one new entry — and a subsequent redo
is a no-op that reports NothingToRedo. -/
theorem commit_truncates_then_redo_noop (s : EngineState) (a : UserAction)
    (hundo : s.cursor < s.history.length)
    (happ : actionApplicable a s = true) :
    (∃ e, (commit a s).history = s.history.take s.cursor ++ [e]) ∧
      redo (commit a s) = (commit a s, .nothingToRedo) := by
  have hcl : s.cursor ≤ s.history.length := Nat.le_of_lt hundo
  cases a with
  | createAnn c g =>
    exact ⟨⟨.create ⟨s.store.nextId, c, g, true⟩, rfl⟩,
      redo_after_record s _ _ hcl⟩
  | deleteAnn i =>
    simp only [actionApplicable] at happ
    obtain ⟨ann, hfind⟩ := Option.isSome_iff_exists.mp happ
    refine ⟨⟨.delete ann (findIdxById s.store.annotations i), ?_⟩, ?_⟩
    · simp only [commit, hfind, recordEntry]
    · simp only [commit, hfind]
      exact redo_after_record s _ _ hcl
  | editAnn i g =>
    simp only [actionApplicable] at happ
    cases hfind : findById s.store.annotations i with
    | none => rw [hfind] at happ; simp at happ
    | some ann =>
      rw [hfind] at happ
      have hsame : ¬ann.geometry = g := by simpa using happ
      refine ⟨⟨.modify i ann.geometry g, ?_⟩, ?_⟩
      · simp only [commit, hfind, hsame, if_false, recordEntry]
      · simp only [commit, hfind, hsame, if_false]
        exact redo_after_record s _ _ hcl

/-- A sample engine state whose history holds one entry with the cursor
rewound to zero, i.e. one undo has been performed. -/
def rewoundState : EngineState :=
  ⟨⟨[], 2, none⟩, [.create ⟨1, 0, .keypoint ⟨0, 0⟩, true⟩], 0⟩

/-- Claim C2 witness: committing a keypoint create on the rewound sample
state discards the old branch and redo reports NothingToRedo. -/
theorem commit_truncates_then_redo_noop_witness :
    (∃ e, (commit (.createAnn 0 (.keypoint ⟨2, 3⟩)) rewoundState).history =
        rewoundState.history.take rewoundState.cursor ++ [e]) ∧
      redo (commit (.createAnn 0 (.keypoint ⟨2, 3⟩)) rewoundState) =
        (commit (.createAnn 0 (.keypoint ⟨2, 3⟩)) rewoundState,
          .nothingToRedo) :=
  commit_truncates_then_redo_noop rewoundState _ (by decide) rfl

/-- Modelled from the spec: the bbox tool pointer-up — normalize the drag
rectangle between the anchor and the release point; on success commit a new
annotation plus its history entry, on DegenerateGeometry discard the draft
silently, leaving store and history untouched. -/
def bboxPointerUp (minSize : ℚ) (classId : Nat) (anchor current : Point)
    (s : EngineState) : EngineState :=
  match normalizeBBox minSize anchor current with
  | .error _ => s
  | .ok r => commit (.createAnn classId (.bbox r.x r.y r.width r.height)) s

/-- Claim C4: for every bbox drag whose normalized width or height falls
below the minimum pixel threshold, normalizeBBox signals DegenerateGeometry
and the bbox tool discards the draft silently: the engine state (store and
history) is completely unchanged. -/
theorem bbox_degenerate_discarded (minSize : ℚ) (classId : Nat)
    (anchor current : Point) (s : EngineState)
    (hdeg : |anchor.x - current.x| < minSize ∨
      |anchor.y - current.y| < minSize) :
    normalizeBBox minSize anchor current = .error .degenerateGeometry ∧
      bboxPointerUp minSize classId anchor current s = s := by
  have hnorm : normalizeBBox minSize anchor current =
      .error .degenerateGeometry := by
    simp only [normalizeBBox]
    rw [if_pos hdeg]
  refine ⟨hnorm, ?_⟩
  unfold bboxPointerUp
  rw [hnorm]

/-- Claim C4 witness: the zero-delta drag from (10, 10) to (10, 10) with a
threshold of one pixel produces no annotation and no history entry. -/
theorem bbox_degenerate_discarded_witness :
    normalizeBBox 1 ⟨10, 10⟩ ⟨10, 10⟩ = .error .degenerateGeometry ∧
      bboxPointerUp 1 0 ⟨10, 10⟩ ⟨10, 10⟩ initialEngineState =
        initialEngineState :=
  bbox_degenerate_discarded 1 0 ⟨10, 10⟩ ⟨10, 10⟩ initialEngineState
    (Or.inl (by norm_num))

/-- Modelled from the spec: the polygon tool close attempt — a close with
fewer than 3 draft vertices is rejected with InvalidGeometry and leaves the
state unchanged; with at least 3 vertices the draft is committed as a
polygon annotation. -/
def closePolygonDraft (classId : Nat) (draft : List Point)
    (s : EngineState) : EngineState × Except GeomError Unit :=
  if draft.length < 3 then (s, .error .invalidGeometry)
  else (commit (.createAnn classId (.polygon draft)) s, .ok ())

/-- Claim C5: closing a polygon draft with fewer than 3 vertices fails with
InvalidGeometry and leaves store and history unchanged, while a close with
at least 3 vertices succeeds and appends the polygon annotation to the
store. -/
theorem closePolygon_min_vertices (classId : Nat) (draft : List Point)
    (s : EngineState) :
    (draft.length < 3 →
      closePolygonDraft classId draft s = (s, .error .invalidGeometry)) ∧
      (3 ≤ draft.length →
        (closePolygonDraft classId draft s).2 = .ok () ∧
          (closePolygonDraft classId draft s).1.store.annotations =
            s.store.annotations ++
              [⟨s.store.nextId, classId, .polygon draft, true⟩]) := by
  constructor
  · intro hlt
    simp only [closePolygonDraft, if_pos hlt]
  · intro hge
    have hnlt : ¬draft.length < 3 := by omega
    simp [closePolygonDraft, if_neg hnlt, commit, recordEntry]

/-- Claim C5 witness: a 2-vertex close attempt is rejected with
InvalidGeometry, and closing the triangle (0,0), (10,0), (10,10) commits it
as a polygon annotation. -/
theorem closePolygon_min_vertices_witness :
    (closePolygonDraft 0 [⟨0, 0⟩, ⟨10, 0⟩] initialEngineState =
        (initialEngineState, .error .invalidGeometry)) ∧
      ((closePolygonDraft 0 [⟨0, 0⟩, ⟨10, 0⟩, ⟨10, 10⟩]
          initialEngineState).2 = .ok () ∧
        (closePolygonDraft 0 [⟨0, 0⟩, ⟨10, 0⟩, ⟨10, 10⟩]
            initialEngineState).1.store.annotations =
          initialEngineState.store.annotations ++
            [⟨1, 0, .polygon [⟨0, 0⟩, ⟨10, 0⟩, ⟨10, 10⟩], true⟩]) :=
  ⟨(closePolygon_min_vertices 0 [⟨0, 0⟩, ⟨10, 0⟩] initialEngineState).1
      (by decide),
    (closePolygon_min_vertices 0 [⟨0, 0⟩, ⟨10, 0⟩, ⟨10, 10⟩]
        initialEngineState).2 (by decide)⟩

/-- Whether a geometry is a bbox. -/
def Geometry.isBBox : Geometry → Bool
  | .bbox _ _ _ _ => true
  | _ => false

/-- The hit with the greatest id in a list (ids order creation time, so the
greatest id is the most recently created annotation). -/
def bestById : List Annotation → Option Annotation
  | [] => none
  | a :: rest =>
      match bestById rest with
      | none => some a
      | some b => if a.id < b.id then some b else some a

/-- Modelled from the spec: the select tool's pointer-down hit resolution —
among all annotations hit at the point, pick the most recently created one,
i.e. the one with the highest id. -/
def topHit (p : Point) (tol : ℚ) (anns : List Annotation) :
    Option Annotation :=
  bestById (anns.filter fun a => hitTestAnnotation p a tol)

/-- Modelled from the spec: the select tool pointer-down — select the top
hit at the point, or clear the selection when nothing is hit (pointer-down
on empty canvas clears selection). -/
def selectToolPointerDown (p : Point) (tol : ℚ) (s : EngineState) :
    EngineState :=
  ⟨⟨s.store.annotations, s.store.nextId,
      (topHit p tol s.store.annotations).map fun a => a.id⟩,
    s.history, s.cursor⟩

theorem bestById_spec (l : List Annotation) (hne : l ≠ []) :
    ∃ c, bestById l = some c ∧ c ∈ l ∧ ∀ x ∈ l, x.id ≤ c.id := by
  induction l with
  | nil => exact absurd rfl hne
  | cons a rest ih =>
    cases hrest : bestById rest with
    | none =>
      cases rest with
      | nil =>
        refine ⟨a, ?_, by simp, ?_⟩
        · simp [bestById]
        · intro x hx
          simp only [List.mem_singleton] at hx
          subst hx
          exact Nat.le_refl _
      | cons y ys =>
        exfalso
        obtain ⟨c, hc, _, _⟩ := ih (by simp)
        rw [hrest] at hc
        exact Option.noConfusion hc
    | some b =>
      obtain ⟨c, hc, hcm, hcb⟩ := ih (by
        intro h
        rw [h] at hrest
        exact Option.noConfusion hrest)
      rw [hrest] at hc
      have hbc : b = c := Option.some.inj hc
      subst hbc
      by_cases hab : a.id < b.id
      · refine ⟨b, ?_, List.mem_cons_of_mem a hcm, ?_⟩
        · simp [bestById, hrest, hab]
        · intro x hx
          rcases List.mem_cons.mp hx with rfl | hx
          · exact Nat.le_of_lt hab
          · exact hcb x hx
      · refine ⟨a, ?_, List.mem_cons_self a rest, ?_⟩
        · simp [bestById, hrest, hab]
        · intro x hx
          rcases List.mem_cons.mp hx with rfl | hx
          · exact Nat.le_refl _
          · exact Nat.le_trans (hcb x hx) (Nat.le_of_not_lt hab)

/-- Claim C6: for every point hit by two or more (distinct) bbox
annotations in the store, the select tool's pointer-down selects the most
recently created annotation among the hits — it selects an id of a hit
annotation whose id is maximal among all hits. -/
theorem select_picks_highest_id (p : Point) (tol : ℚ) (s : EngineState)
    (a b : Annotation) (ha : a ∈ s.store.annotations)
    (hb : b ∈ s.store.annotations) (hne : a ≠ b)
    (habb : a.geometry.isBBox = true) (hbbb : b.geometry.isBBox = true)
    (hha : hitTestAnnotation p a tol = true)
    (hhb : hitTestAnnotation p b tol = true) :
    ∃ c, (selectToolPointerDown p tol s).store.selected = some c.id ∧
      c ∈ s.store.annotations ∧ hitTestAnnotation p c tol = true ∧
      ∀ d ∈ s.store.annotations, hitTestAnnotation p d tol = true →
        d.id ≤ c.id := by
  have hmem : a ∈ s.store.annotations.filter
      (fun x => hitTestAnnotation p x tol) := List.mem_filter.mpr ⟨ha, hha⟩
  have hfne : s.store.annotations.filter
      (fun x => hitTestAnnotation p x tol) ≠ [] := by
    intro h
    rw [h] at hmem
    exact List.not_mem_nil a hmem
  obtain ⟨c, hc, hcm, hcb⟩ := bestById_spec _ hfne
  refine ⟨c, ?_, ?_, ?_, ?_⟩
  · simp [selectToolPointerDown, topHit, hc]
  · exact (List.mem_filter.mp hcm).1
  · exact (List.mem_filter.mp hcm).2
  · intro d hd hhd
    exact hcb d (List.mem_filter.mpr ⟨hd, hhd⟩)

/-- A sample store holding two overlapping bboxes (ids 1 and 2) both
containing the point (6, 6). -/
def overlappingState : EngineState :=
  ⟨⟨[⟨1, 0, .bbox 0 0 10 10, true⟩, ⟨2, 0, .bbox 5 5 10 10, true⟩], 3,
      none⟩, [], 0⟩

/-- Claim C6 witness: at point (6, 6), inside both bboxes of the sample
store, the select tool picks a maximal-id hit (namely id 2). -/
theorem select_picks_highest_id_witness :
    ∃ c, (selectToolPointerDown ⟨6, 6⟩ 1 overlappingState).store.selected =
        some c.id ∧
      c ∈ overlappingState.store.annotations ∧
      hitTestAnnotation ⟨6, 6⟩ c 1 = true ∧
      ∀ d ∈ overlappingState.store.annotations,
        hitTestAnnotation ⟨6, 6⟩ d 1 = true → d.id ≤ c.id :=
  select_picks_highest_id ⟨6, 6⟩ 1 overlappingState
    ⟨1, 0, .bbox 0 0 10 10, true⟩ ⟨2, 0, .bbox 5 5 10 10, true⟩
    (by simp [overlappingState]) (by simp [overlappingState])
    (by simp) rfl rfl
    (by norm_num [ hitTestAnnotation]) (by norm_num [ hitTestAnnotation])

/-- The annotation tool variants of the workbench. -/
inductive ToolType
  | select
  | bbox
  | polygon
  | keypoint
deriving DecidableEq, Repr

/-- One entry of the tool palette: tool variant, label, shortcut key. -/
structure ToolsBarItem where
  type : ToolType
  label : String
  shortcut : String
deriving DecidableEq, Repr

/-- Translated from ToolsBar.tsx: the tools array rendered as the tool
palette, one button per tool with its display label and shortcut key. -/
def toolsBarTools : List ToolsBarItem :=
  [⟨.select, "选择", "V"⟩, ⟨.bbox, "矩形框", "R"⟩,
    ⟨.polygon, "多边形", "P"⟩, ⟨.keypoint, "关键点", "K"⟩]

/-- Modelled from the spec: the InteractionController recognizes the
tool-switch shortcut keys itself and switches the active tool directly,
bypassing tool-specific logic; any other key is not a tool switch. -/
def controllerToolForKey (k : String) : Option ToolType :=
  if k = "V" then some .select
  else if k = "R" then some .bbox
  else if k = "P" then some .polygon
  else if k = "K" then some .keypoint
  else none

/-- The effects a tool state machine's own key handling can have; there is
deliberately no tool-switch effect — switching lives in the controller. -/
inductive ToolKeyEffect
  | closeDraft
  | cancelDraft
  | ignore
deriving DecidableEq, Repr

/-- Modelled from the spec: per-tool key handling — Enter closes a polygon
draft and Escape cancels it; no tool state machine ever switches the active
tool. -/
def toolHandleKey (t : ToolType) (k : String) : ToolKeyEffect :=
  match t with
  | .polygon =>
      if k = "Enter" then .closeDraft
      else if k = "Escape" then .cancelDraft
      else .ignore
  | _ => .ignore

/-- Claim C7: the exposed annotation tools are exactly the four variants
select, bbox, polygon and keypoint with dedicated switch shortcuts V, R, P
and K, every tool variant is reachable from the palette, the controller
key dispatch maps exactly those four keys to those tools, and no other key
switches a tool (switching is controller-level, not tool-level: the
per-tool key effect type has no switch effect at all). -/
theorem tools_exactly_four_with_shortcuts :
    toolsBarTools.map (fun i => i.type) =
        [.select, .bbox, .polygon, .keypoint] ∧
      toolsBarTools.map (fun i => i.shortcut) = ["V", "R", "P", "K"] ∧
      (∀ t : ToolType, t ∈ toolsBarTools.map (fun i => i.type)) ∧
      controllerToolForKey "V" = some .select ∧
      controllerToolForKey "R" = some .bbox ∧
      controllerToolForKey "P" = some .polygon ∧
      controllerToolForKey "K" = some .keypoint ∧
      (∀ k : String, controllerToolForKey k = none ∨
        k ∈ (["V", "R", "P", "K"] : List String)) := by
  refine ⟨rfl, rfl, ?_, by decide, by decide, by decide, by decide, ?_⟩
  · intro t
    cases t <;> simp [toolsBarTools]
  · intro k
    unfold controllerToolForKey
    split_ifs with h1 h2 h3 h4
    · exact Or.inr (by simp [h1])
    · exact Or.inr (by simp [h2])
    · exact Or.inr (by simp [h3])
    · exact Or.inr (by simp [h4])
    · exact Or.inl rfl

/-- Translated from ControlPanel.tsx: the annotation-list item click
handler calls onAnnotationSelect(ann.id || null); JavaScript's || yields
null when ann.id is the falsy number 0, and the id itself otherwise. -/
def annotationClickSelectArg (i : Nat) : Option Nat :=
  if i = 0 then none else some i

/-- Claim C8: clicking the list item of an annotation with id 0 invokes
onAnnotationSelect with null (a deselect), while a click for any non-zero
id passes that id. -/
theorem annotationClick_zero_id_deselects (i : Nat) (hi : i ≠ 0) :
    annotationClickSelectArg 0 = none ∧
      annotationClickSelectArg i = some i := by
  refine ⟨rfl, ?_⟩
  simp [annotationClickSelectArg, hi]

/-- Claim C8 witness: id 0 deselects, id 5 selects id 5. -/
theorem annotationClick_zero_id_deselects_witness :
    annotationClickSelectArg 0 = none ∧
      annotationClickSelectArg 5 = some 5 :=
  annotationClick_zero_id_deselects 5 (by decide)

/-- A chosen browser file as the upload handler sees it: its MIME type and
its size in bytes. -/
structure BrowserFile where
  type : String
  size : Nat
deriving DecidableEq, Repr

/-- Translated from ControlPanel.tsx: the accepted image MIME types. -/
def allowedTypes : List String :=
  ["image/jpeg", "image/jpg", "image/png", "image/bmp", "image/gif",
    "image/webp"]

/-- Translated from ControlPanel.tsx: the 10 MB upload size limit. -/
def maxUploadSize : Nat := 10 * 1024 * 1024

/-- Whether the upload handler issued the HTTP upload request. -/
inductive UploadOutcome
  | noRequest
  | requestSent
deriving DecidableEq, Repr

/-- Translated from ControlPanel.tsx handleFileSelect: take the first
chosen file (none aborts), reject a MIME type outside the allow-list, then
reject a size above the limit, otherwise POST the upload request. -/
def handleFileSelect (files : List BrowserFile) : UploadOutcome :=
  match files with
  | [] => .noRequest
  | file :: _ =>
      if ¬(allowedTypes.contains file.type) then .noRequest
      else if file.size > maxUploadSize then .noRequest
      else .requestSent

/-- Claim C9: for every chosen file, the upload request is issued exactly
when the file's MIME type is in the allow-list and its size is at most
10 * 1024 * 1024 bytes; otherwise the handler returns without any
request. -/
theorem handleFileSelect_validates (file : BrowserFile)
    (rest : List BrowserFile) :
    handleFileSelect (file :: rest) = .requestSent ↔
      (file.type ∈ allowedTypes ∧ file.size ≤ maxUploadSize) := by
  simp only [handleFileSelect]
  constructor
  · intro h
    by_cases ht : allowedTypes.contains file.type
    · by_cases hs : file.size > maxUploadSize
      · rw [if_neg (by simpa using ht), if_pos hs] at h
        exact absurd h (by simp)
      · exact ⟨by simpa using ht, Nat.le_of_not_lt hs⟩
    · rw [if_pos (by simpa using ht)] at h
      exact absurd h (by simp)
  · rintro ⟨ht, hs⟩
    rw [if_neg (by simpa using ht), if_neg (by omega)]

/-- A project entity as the App component models it. -/
structure Project where
  id : String
  name : String
  description : String
deriving DecidableEq, Repr

/-- The possible outcomes of the project-list fetch in App.tsx: a parsed
project list on success; an exception path for a non-OK HTTP status (the
handler throws on !response.ok) or for a thrown network / JSON-parse
error. -/
inductive FetchProjectsOutcome
  | ok (projects : List Project)
  | httpError (status : Nat)
  | fetchFailure
deriving DecidableEq, Repr

/-- Translated from App.tsx fetchProjects: the projects state after one
fetch — the parsed data on success; every caught failure sets the empty
list (so a missing backend shows an empty list instead of an error),
regardless of the previous state. -/
def fetchProjectsNextState (prev : List Project)
    (r : FetchProjectsOutcome) : List Project :=
  match r with
  | .ok ps => ps
  | .httpError _ => []
  | .fetchFailure => []

/-- Claim C10: every failure of the project-list fetch — any non-OK HTTP
status or any thrown network / parse error — sets the projects state to
the empty list, whatever it was before, rather than leaving it unchanged
or propagating the error. -/
theorem fetchProjects_failure_empties (prev : List Project) (status : Nat) :
    fetchProjectsNextState prev (.httpError status) = [] ∧
      fetchProjectsNextState prev .fetchFailure = [] :=
  ⟨rfl, rfl⟩

end NeoEyes
